import Mathlib

/-!
Verification of the condor-cheatsheet scraping script.

Shallow embedding of `grab_condor_docs.py` (Python 2).  Python strings are
modelled as Lean `String`/`List Char`; the specific regular expressions used
by the script are embedded as executable recursive matchers with Python's
leftmost-search, greedy-with-backtracking semantics; `re.IGNORECASE` is
modelled by comparing characters through `Char.toLower` (the script runs
under Python 2's ASCII/C locale, where case folding is ASCII-only, matching
Lean's `Char.toLower`).
-/

set_option autoImplicit false

/-- Case-insensitive literal match: `ciPrefixOf needle hay` is true when
`needle` matches the beginning of `hay` comparing characters via
`Char.toLower`.  This models matching a literal inside a Python regex
compiled with `re.IGNORECASE`. -/
def ciPrefixOf : List Char → List Char → Bool
  | [], _ => true
  | _ :: _, [] => false
  | n :: ns, c :: cs => (n.toLower = c.toLower) && ciPrefixOf ns cs

/-- The character class of the brief-extraction regex (line 166 of
`grab_condor_docs.py`): digits backslash-d, open bracket, digit class,
word class, dot, the two parens, a range from close-paren to slash, space,
apostrophe, newline, close bracket.  Token by token: `\d` (ASCII digits),
`\w` (ASCII letters, digits, underscore), literal `.`, literal `(`, the
range from `)` (0x29) to `/` (0x2F) — which contains `)`, `*`, `+`, `,`,
`-`, `.`, `/` — then space, apostrophe, and newline.  `re.IGNORECASE` does
not change the class since `\w` already contains both letter cases. -/
def briefClass (c : Char) : Bool :=
  c.isDigit || (c.isAlpha || c.isDigit || c = '_') || c = '.' || c = '(' ||
    (')' ≤ c && c ≤ '/') || c = ' ' || c = '\'' || c = '\n'

/-- The stop literal `\nSynopsis` of the brief-extraction regex. -/
def nlSynopsisL : List Char := '\n' :: "Synopsis".data

/-- Greedy match of "(CLASS*) newline Synopsis" — where CLASS is
`briefClass` — against a prefix of the input, returning the text of the
capture group.  The Kleene star is greedy
with backtracking: at every character we first try to extend the group and
only on failure try to match the stop literal here, so a successful result
is the longest capture whose remainder starts with `\nSynopsis`
(case-insensitively).  The empty input cannot match because the stop
literal is nonempty. -/
def greedyBrief : List Char → Option (List Char)
  | [] => none
  | c :: rest =>
    if briefClass c then
      match greedyBrief rest with
      | some g => some (c :: g)
      | none => if ciPrefixOf nlSynopsisL (c :: rest) then some [] else none
    else
      if ciPrefixOf nlSynopsisL (c :: rest) then some [] else none

/-- Match of the whole brief regex — "name, newline, (CLASS*), newline,
Synopsis" — anchored at the start of `cs` (the command name is
interpolated literally into the pattern).  Returns the capture group on
success. -/
def briefAt (name : List Char) (cs : List Char) : Option (List Char) :=
  if ciPrefixOf name cs then
    match cs.drop name.length with
    | '\n' :: rest => greedyBrief rest
    | _ => none
  else none

/-- Model of `re.search` for the brief regex: try each start position from
the left, returning the first successful match's capture group. -/
def briefSearch (name : List Char) : List Char → Option (List Char)
  | [] => none
  | c :: rest =>
    match briefAt name (c :: rest) with
    | some g => some g
    | none => briefSearch name rest

/-- Python's `s.replace('\n', ' ')`. -/
def nlToSpace (l : List Char) : List Char :=
  l.map fun c => if c = '\n' then ' ' else c

/-- The brief field of `grab_cmd_info` (lines 166–172): search the body for
the brief regex; on a match, the capture group with newlines replaced by
spaces; otherwise `none` (the script prints a diagnostic and stores
`None`). -/
def briefExtract (name body : String) : Option String :=
  (briefSearch name.data body.data).map fun g => String.mk (nlToSpace g)

/-- The literal `Synopsis` followed by a newline, the anchor of the
synopsis-extraction regex (line 175 of the script). -/
def synopsisNlL : List Char := "Synopsis\n".data

/-- The literal `Description`, the stop keyword of the synopsis regex. -/
def descriptionL : List Char := "Description".data

/-- Matchability of the regex suffix "[newline space]+ Description" at the
start of the input: at least one newline-or-space character, then the
literal `Description` (case-insensitively).  Since `D` is neither a
newline nor a space, greediness of the plus does not affect whether a
match exists here, and nothing of the pattern follows the literal. -/
def nlspDescription : List Char → Bool
  | [] => false
  | c :: rest =>
    (c = '\n' || c = ' ') && (ciPrefixOf descriptionL rest || nlspDescription rest)

/-- Greedy match of ".* [newline space]+ Description" with `re.DOTALL`
semantics (the dot matches every character, newline included), returning
the text consumed by the dot-star.  At every character we first try to
extend the dot-star and only on failure close it here, so a successful
result is the longest prefix whose remainder matches
"[newline space]+ Description". -/
def synRest : List Char → Option (List Char)
  | [] => none
  | c :: rest =>
    match synRest rest with
    | some g => some (c :: g)
    | none => if nlspDescription (c :: rest) then some [] else none

/-- Greedy match of ".+ [newline space]+ Description": one mandatory
character (any, by `re.DOTALL`) followed by `synRest`.  Returns the text
consumed by the dot-plus. -/
def synTail : List Char → Option (List Char)
  | [] => none
  | c :: rest => (synRest rest).map fun g => c :: g

/-- Match of the whole synopsis regex — "Synopsis, newline, (name .+),
[newline space]+, Description" — anchored at the start of `cs`.  Returns
the capture group, which starts with the command name *as it occurs in
the body* (the match is case-insensitive, and `re` captures the matched
text, not the pattern text). -/
def synAt (name : List Char) (cs : List Char) : Option (List Char) :=
  if ciPrefixOf synopsisNlL cs then
    let r := cs.drop synopsisNlL.length
    if ciPrefixOf name r then
      (synTail (r.drop name.length)).map fun t => r.take name.length ++ t
    else none
  else none

/-- Model of `re.search` for the synopsis regex: try each start position
from the left, returning the first successful match's capture group. -/
def synSearch (name : List Char) : List Char → Option (List Char)
  | [] => none
  | c :: rest =>
    match synAt name (c :: rest) with
    | some g => some g
    | none => synSearch name rest

/-- The whitespace stripped by Python 2's `str.strip()`: space, tab,
newline, carriage return, vertical tab, form feed. -/
def isStripWs (c : Char) : Bool :=
  c = ' ' || c = '\t' || c = '\n' || c = '\r' || c = '\x0b' || c = '\x0c'

/-- Python's `s.strip()`. -/
def pyStrip (l : List Char) : List Char :=
  ((l.dropWhile isStripWs).reverse.dropWhile isStripWs).reverse

/-- Leftmost occurrence of `sep` in the input, as the pair of the text
before the occurrence and the text after it; `none` when `sep` does not
occur. -/
def findSep (sep : List Char) : List Char → Option (List Char × List Char)
  | [] => if sep.isEmpty then some ([], []) else none
  | c :: rest =>
    if sep.isPrefixOf (c :: rest) then some ([], (c :: rest).drop sep.length)
    else (findSep sep rest).map fun p => (c :: p.1, p.2)

/-- Python's `s.split(sep)` for a nonempty separator (case-SENSITIVE,
unlike the regex match), written with explicit fuel to stay structurally
recursive; each split step consumes at least one character, so
`length + 1` units of fuel (supplied by `pySplit`) always suffice. -/
def pySplitF (sep : List Char) : Nat → List Char → List (List Char)
  | 0, cs => [cs]
  | fuel + 1, cs =>
    match findSep sep cs with
    | none => [cs]
    | some (b, a) => b :: pySplitF sep fuel a

/-- Python's `synopsis_raw.split(cmd.name)`. -/
def pySplit (sep cs : List Char) : List (List Char) :=
  pySplitF sep (cs.length + 1) cs

/-- The synopsis field of `grab_cmd_info` (lines 175–182): search the body
for the synopsis regex; on a match, split the captured block on the
command name (case-sensitively), keep the fragments that are nonempty
*before* post-processing, and give each kept fragment Python's
`.replace('\n', ' ').strip()`; on no match, `none` (the script prints a
diagnostic and stores `None`). -/
def synopsisExtract (name body : String) : Option (List String) :=
  (synSearch name.data body.data).map fun g =>
    ((pySplit name.data g).filter fun i => !i.isEmpty).map
      fun i => String.mk (pyStrip (nlToSpace i))

/-- The whitespace class of the sanitising regexes (lines 160–161): Python
2's backslash-s — space, tab, newline, carriage return, vertical tab, form
feed — together with the explicitly added non-breaking space 0xA0. -/
def isWs (c : Char) : Bool :=
  c = ' ' || c = '\t' || c = '\n' || c = '\r' || c = '\x0b' || c = '\x0c' || c = '\xa0'

/-- Whether a list starts with a newline. -/
def headIsNl : List Char → Bool
  | [] => false
  | b :: _ => b = '\n'

/-- Whether a list starts with a whitespace character (in the sense of
`isWs`). -/
def headIsWs : List Char → Bool
  | [] => false
  | b :: _ => isWs b

/-- Line 159, `re.sub` of "newline newline+" by a single newline: every
maximal run of two or more newlines collapses to one (the greedy plus eats
the whole run).  Character-by-character form: a newline immediately
followed by another newline is dropped, so of each newline run only the
last survives. -/
def subBlankLines : List Char → List Char
  | [] => []
  | c :: rest =>
    if c = '\n' && headIsNl rest then subBlankLines rest
    else c :: subBlankLines rest

/-- Line 160, `re.sub` of "newline ws+" by a single newline, as a
left-to-right scan: after emitting a newline the whole following
whitespace run (the greedy plus) is dropped; the flag records whether the
scan sits inside such a run. -/
def subLeadingWsGo : Bool → List Char → List Char
  | _, [] => []
  | afterNl, c :: rest =>
    if afterNl && isWs c then subLeadingWsGo true rest
    else if c = '\n' then '\n' :: subLeadingWsGo true rest
    else c :: subLeadingWsGo false rest

/-- Line 160's substitution, starting outside any newline-whitespace run
(the pattern is anchored on a literal newline, so nothing is dropped
before the first newline). -/
def subLeadingWs (cs : List Char) : List Char := subLeadingWsGo false cs

/-- Line 161, `re.sub` of "ws+ newline" by a single newline.  At a match
the greedy plus backtracks to the last newline of the maximal whitespace
run, so the run up to and including its last newline — provided at least
one whitespace character precedes that newline — is replaced by one
newline.  Character-by-character form: a whitespace character is dropped
exactly when a newline occurs later in its whitespace run. -/
def subTrailingWs : List Char → List Char
  | [] => []
  | c :: rest =>
    if isWs c && (rest.takeWhile isWs).contains '\n' then subTrailingWs rest
    else c :: subTrailingWs rest

/-- The full three-substitution sanitising pipeline of lines 159–161, in
source order. -/
def normalizeText (cs : List Char) : List Char :=
  subTrailingWs (subLeadingWs (subBlankLines cs))

/-- String wrapper for the sanitising pipeline. -/
def normalizeStr (s : String) : String := String.mk (normalizeText s.data)

/-- Python's `s.startswith(pre)`: an exact (case-sensitive) prefix test,
modelled on the character lists so that it is kernel-computable. -/
def pyStartsWith (s pre : String) : Bool :=
  pre.data.isPrefixOf s.data

/-- Model of `check_version_str` (lines 42–46): prepend a `v` unless the string
already starts with one or is exactly `current`. -/
def check_version_str (version : String) : String :=
  if !pyStartsWith version "v" && version != "current" then "v" ++ version
  else version

/-- The value of Python's `int` on a string of ASCII digits, the only shape
the script feeds it (a dotted-version component); `int` raises on any
other string, which this total model does not represent. -/
def digitsVal (l : List Char) : Nat :=
  l.foldl (fun acc c => acc * 10 + (c.toNat - 48)) 0

/-- Python's `x.split('.')`. -/
def splitDots : List Char → List (List Char)
  | [] => [[]]
  | c :: rest =>
    if c = '.' then [] :: splitDots rest
    else
      match splitDots rest with
      | [] => [[c]]
      | g :: gs => (c :: g) :: gs

/-- The sort key `int(x.split('.')[i])` of `sort_versions`; Python raises
an IndexError when the component is missing, which this total model
replaces by an empty component. -/
def versionField (i : Nat) (s : String) : Nat :=
  digitsVal ((splitDots s.data).getD i [])

/-- One insertion step of a stable sort by a numeric key, ordered by
`reverse`: the new element passes over every element that must stay before
it (strictly greater key when descending, strictly smaller when
ascending) and lands before the first remaining one, so that elements
with equal keys keep their original relative order — the stability
guarantee of Python's `sorted`/`list.sort`. -/
def insertKey (reverse : Bool) (key : String → Nat) (a : String) : List String → List String
  | [] => [a]
  | b :: rest =>
    if (if reverse then key a < key b else key b < key a) then
      b :: insertKey reverse key a rest
    else a :: b :: rest

/-- Stable sort by a numeric key with Python's `reverse` flag, as a
right-fold insertion sort (each element is inserted into the sorted tail,
landing before any equal-keyed element that came later in the input). -/
def pySorted (reverse : Bool) (key : String → Nat) : List String → List String
  | [] => []
  | a :: rest => insertKey reverse key a (pySorted reverse key rest)

/-- Model of `sort_versions` (lines 88–101): remove every `v` from every entry
(Python's `x.replace('v', '')` deletes all occurrences, not only a
prefix), then three successive stable sorts by the patch, minor and major
numeric components, so that the last-run major sort dominates. -/
def sort_versions (version_list : List String) (reverse : Bool) : List String :=
  let stripped := version_list.map fun x => String.mk (x.data.filter fun c => c ≠ 'v')
  pySorted reverse (versionField 0)
    (pySorted reverse (versionField 1)
      (pySorted reverse (versionField 2) stripped))

/-- Error taxonomy of the spec that the script's failures realise. -/
inductive ScrapeError : Type
  /-- the fetched document has no body element; the script's
  `soup_cmd.body.text` raises (an `AttributeError` on `None`) -/
  | malformedInput : ScrapeError

/-- A fetched, HTML-parsed document, reduced to what line 158 of the
script reads from it: the text of its body element, when one exists. -/
structure FetchedDoc : Type where
  /-- the text of the body element, or `none` when the document has no
  body element -/
  bodyText : Option String

/-- Line 158, `soup_cmd.body.text`: reading the body text of a document
with no body raises (in Python, an `AttributeError` from `None.text`);
the exception is modelled by `Except.error`. -/
def getBodyText (d : FetchedDoc) : Except ScrapeError String :=
  match d.bodyText with
  | none => .error .malformedInput
  | some t => .ok t

/-- The text-normalization step of `grab_cmd_info` (lines 158–161): read
the body text — raising on a document with no body — and sanitise it. -/
def normalizeStep (d : FetchedDoc) : Except ScrapeError String :=
  match getBodyText d with
  | .error e => .error e
  | .ok t => .ok (normalizeStr t)

/-- Case-insensitive occurrence of a literal anywhere in a text, the way a
searched pattern can consume it: some start position carries the literal
as a case-insensitive prefix of the remaining text. -/
def ciOccurs (needle : List Char) : List Char → Bool
  | [] => ciPrefixOf needle []
  | c :: rest => ciPrefixOf needle (c :: rest) || ciOccurs needle rest

/-- No newline of the text is immediately followed by a whitespace
character: after the sanitising pipeline this is what the substitutions of
lines 159 and 160 guarantee. -/
def noNlThenWs : List Char → Bool
  | [] => true
  | a :: rest => !(a = '\n' && headIsWs rest) && noNlThenWs rest

/-- No whitespace character of the text is immediately followed by a
newline: after the sanitising pipeline this is what the substitution of
line 161 guarantees. -/
def noWsThenNl : List Char → Bool
  | [] => true
  | a :: rest => !(isWs a && headIsNl rest) && noWsThenNl rest

theorem greedyBrief_all_class : ∀ cs g : List Char, greedyBrief cs = some g → g.all briefClass = true := by
  intro cs
  induction cs with
  | nil => intro g h; simp [greedyBrief] at h
  | cons c rest ih =>
    intro g h
    simp only [greedyBrief] at h
    by_cases hc : briefClass c = true
    · rw [if_pos hc] at h
      cases hg : greedyBrief rest with
      | some g' =>
        rw [hg] at h
        injection h with h'
        subst h'
        simp [List.all_cons, hc, ih g' hg]
      | none =>
        rw [hg] at h
        by_cases hp : ciPrefixOf nlSynopsisL (c :: rest) = true
        · rw [if_pos hp] at h
          injection h with h'
          subst h'
          rfl
        · rw [if_neg hp] at h
          exact Option.noConfusion h
    · rw [if_neg hc] at h
      by_cases hp : ciPrefixOf nlSynopsisL (c :: rest) = true
      · rw [if_pos hp] at h
        injection h with h'
        subst h'
        rfl
      · rw [if_neg hp] at h
        exact Option.noConfusion h

theorem briefAt_all_class (name cs g : List Char) (h : briefAt name cs = some g) :
    g.all briefClass = true := by
  unfold briefAt at h
  split at h
  · split at h
    · exact greedyBrief_all_class _ _ h
    · exact Option.noConfusion h
  · exact Option.noConfusion h

theorem briefSearch_all_class : ∀ body : List Char, ∀ name g : List Char,
    briefSearch name body = some g → g.all briefClass = true := by
  intro body
  induction body with
  | nil => intro name g h; simp [briefSearch] at h
  | cons c rest ih =>
    intro name g h
    simp only [briefSearch] at h
    cases ha : briefAt name (c :: rest) with
    | some g' =>
      rw [ha] at h
      injection h with h'
      subst h'
      exact briefAt_all_class _ _ _ ha
    | none => rw [ha] at h; exact ih name g h

/-- C1: for command name "foo" and the normalized body block
"foo, newline, Does a thing., newline, Synopsis, newline, foo bar,
newline, space, Description", the brief extraction of `grab_cmd_info`
yields the brief "Does a thing." (newlines inside the captured text, if
any, replaced by single spaces). -/
theorem brief_extract_foo_block :
    briefExtract "foo" "foo\nDoes a thing.\nSynopsis\nfoo bar\n Description"
      = some "Does a thing." := by
  decide

/-- C2: for command name "foo" and the normalized text "Synopsis, newline,
foo -a, newline, foo -b, newline, Description", the synopsis extraction of
`grab_cmd_info` yields the ordered list ["-a", "-b"]: the matched block is
split on the command name, each fragment has newlines replaced by spaces
and is trimmed, and empty fragments are dropped. -/
theorem synopsis_extract_foo_pair :
    synopsisExtract "foo" "Synopsis\nfoo -a\nfoo -b\nDescription"
      = some ["-a", "-b"] := by
  decide

/-- C3 (counterexample): the claim that a brief capture contains only
letters, digits, dot, parens, hyphen, slash, space, apostrophe and newline
— and never a comma — is false: for command name "foo" and body
"foo, newline, A comma-space B, newline, Synopsis" the capture group is
"A, B", which contains a comma (admitted by the class range from
close-paren to slash). -/
theorem brief_capture_comma_counterexample :
    briefSearch "foo".data "foo\nA, B\nSynopsis".data = some "A, B".data ∧
    ',' ∈ "A, B".data := by
  decide

/-- C3 (amended): every character of a brief capture group lies in the
character class actually written in the regex — letters, digits,
underscore, dot, open paren, the range from close-paren to slash (which
adds star, plus and comma to the claimed close-paren, hyphen, dot and
slash), space, apostrophe, and newline. -/
theorem brief_capture_class_amended (name body g : List Char)
    (h : briefSearch name body = some g) : g.all briefClass = true :=
  briefSearch_all_class body name g h

/-- C3 (witness): the amended statement evaluated at the counterexample's
input. -/
theorem brief_capture_class_witness : ("A, B".data).all briefClass = true :=
  brief_capture_class_amended "foo".data "foo\nA, B\nSynopsis".data "A, B".data (by decide)

/-- C8: `sort_versions` on ["8.0.1", "10.2.0", "9.5.3", "10.1.9"] with
reverse set orders by the numeric (major, minor, patch) triple descending,
not lexicographically. -/
theorem sort_versions_numeric_descending :
    sort_versions ["8.0.1", "10.2.0", "9.5.3", "10.1.9"] true
      = ["10.2.0", "10.1.9", "9.5.3", "8.0.1"] := by
  decide

/-- C10: the synopsis block is matched against the command name
case-insensitively but split on it case-sensitively: for command name
"foo" and body "Synopsis, newline, foo -a, newline, FOO -b, newline,
Description" the matched block is "foo -a, newline, FOO -b", and the
returned fragment "-a FOO -b" still contains the case-variant "FOO",
which was not removed as a delimiter. -/
theorem synopsis_case_sensitive_split :
    synopsisExtract "foo" "Synopsis\nfoo -a\nFOO -b\nDescription"
      = some ["-a FOO -b"] ∧
    List.IsInfix "FOO".data ("-a FOO -b" : String).data := by
  constructor
  · decide
  · decide

/-- C7: `check_version_str` prepends "v" exactly when the input neither
starts with "v" nor equals "current", and returns the input unchanged when
it equals "current" or already starts with "v". -/
theorem check_version_str_cases (v : String) :
    (pyStartsWith v "v" = false → v ≠ "current" → check_version_str v = "v" ++ v) ∧
    (v = "current" ∨ pyStartsWith v "v" = true → check_version_str v = v) := by
  constructor
  · intro h1 h2
    have hb : (v != "current") = true := by simp [bne_iff_ne, h2]
    simp [check_version_str, h1, hb]
  · intro h
    rcases h with h | h
    · subst h; decide
    · simp [check_version_str, h]

/-- C7 (witness): the three cases at concrete versions. -/
theorem check_version_str_witness :
    check_version_str "8.9.1" = "v8.9.1" ∧ check_version_str "current" = "current" ∧
    check_version_str "v9.0.0" = "v9.0.0" :=
  ⟨(check_version_str_cases "8.9.1").1 (by decide) (by decide),
   (check_version_str_cases "current").2 (Or.inl rfl),
   (check_version_str_cases "v9.0.0").2 (Or.inr (by decide))⟩

theorem ciPrefixOf_append_left : ∀ l1 l2 cs : List Char,
    ciPrefixOf (l1 ++ l2) cs = true → ciPrefixOf l1 cs = true := by
  intro l1
  induction l1 with
  | nil => intro l2 cs _; rfl
  | cons n ns ih =>
    intro l2 cs h
    cases cs with
    | nil => simp [ciPrefixOf] at h
    | cons c cs' =>
      simp only [List.cons_append, ciPrefixOf, Bool.and_eq_true] at h ⊢
      exact ⟨h.1, ih l2 cs' h.2⟩

theorem ciPrefixOf_ciOccurs (n hay : List Char) (h : ciPrefixOf n hay = true) :
    ciOccurs n hay = true := by
  cases hay with
  | nil => simpa [ciOccurs] using h
  | cons c rest => simp [ciOccurs, h]

theorem ciOccurs_cons (n : List Char) (c : Char) (rest : List Char)
    (h : ciOccurs n rest = true) : ciOccurs n (c :: rest) = true := by
  simp [ciOccurs, h]

theorem ciOccurs_drop (n : List Char) : ∀ (k : Nat) (hay : List Char),
    ciOccurs n (hay.drop k) = true → ciOccurs n hay = true := by
  intro k
  induction k with
  | zero => intro hay h; simpa using h
  | succ k ih =>
    intro hay h
    cases hay with
    | nil => simpa using h
    | cons c rest =>
      rw [List.drop_succ_cons] at h
      exact ciOccurs_cons _ _ _ (ih rest h)

theorem nlspDescription_occurs : ∀ cs : List Char,
    nlspDescription cs = true → ciOccurs descriptionL cs = true := by
  intro cs
  induction cs with
  | nil => intro h; simp [nlspDescription] at h
  | cons c rest ih =>
    intro h
    simp only [nlspDescription, Bool.and_eq_true, Bool.or_eq_true] at h
    rcases h.2 with hp | ho
    · exact ciOccurs_cons _ _ _ (ciPrefixOf_ciOccurs _ _ hp)
    · exact ciOccurs_cons _ _ _ (ih ho)

theorem synRest_occurs : ∀ cs g : List Char,
    synRest cs = some g → ciOccurs descriptionL cs = true := by
  intro cs
  induction cs with
  | nil => intro g h; simp [synRest] at h
  | cons c rest ih =>
    intro g h
    simp only [synRest] at h
    cases hr : synRest rest with
    | some g' => exact ciOccurs_cons _ _ _ (ih g' hr)
    | none =>
      rw [hr] at h
      by_cases hp : nlspDescription (c :: rest) = true
      · exact nlspDescription_occurs _ hp
      · rw [if_neg hp] at h; exact Option.noConfusion h

theorem synTail_occurs (cs g : List Char) (h : synTail cs = some g) :
    ciOccurs descriptionL cs = true := by
  cases cs with
  | nil => simp [synTail] at h
  | cons c rest =>
    simp only [synTail] at h
    cases hr : synRest rest with
    | some g' => exact ciOccurs_cons _ _ _ (synRest_occurs rest g' hr)
    | none => rw [hr] at h; exact Option.noConfusion h

theorem synAt_occurs (name cs g : List Char) (h : synAt name cs = some g) :
    ciOccurs "Synopsis".data cs = true ∧ ciOccurs descriptionL cs = true := by
  unfold synAt at h
  by_cases h1 : ciPrefixOf synopsisNlL cs = true
  · rw [if_pos h1] at h
    constructor
    · exact ciPrefixOf_ciOccurs _ _
        (ciPrefixOf_append_left "Synopsis".data ['\n'] cs (by exact h1))
    · by_cases h2 : ciPrefixOf name (cs.drop synopsisNlL.length) = true
      · rw [if_pos h2] at h
        cases ht : synTail ((cs.drop synopsisNlL.length).drop name.length) with
        | some t =>
          have hocc := synTail_occurs _ _ ht
          exact ciOccurs_drop _ _ _ (ciOccurs_drop _ _ _ hocc)
        | none => rw [ht] at h; exact Option.noConfusion h
      · rw [if_neg h2] at h; exact Option.noConfusion h
  · rw [if_neg h1] at h; exact Option.noConfusion h

theorem synSearch_occurs : ∀ body : List Char, ∀ name g : List Char,
    synSearch name body = some g →
    ciOccurs "Synopsis".data body = true ∧ ciOccurs descriptionL body = true := by
  intro body
  induction body with
  | nil => intro name g h; simp [synSearch] at h
  | cons c rest ih =>
    intro name g h
    simp only [synSearch] at h
    cases ha : synAt name (c :: rest) with
    | some g' => exact synAt_occurs _ _ _ ha
    | none =>
      rw [ha] at h
      obtain ⟨o1, o2⟩ := ih name g h
      exact ⟨ciOccurs_cons _ _ _ o1, ciOccurs_cons _ _ _ o2⟩

/-- C4: for every command name and body text, if the keyword "Synopsis" or
the keyword "Description" does not occur in the body (in any letter case —
the regex matches case-insensitively), the synopsis extraction yields
`none`; no exception is possible, the extraction being a total
function. -/
theorem synopsis_none_when_keyword_absent (name body : String)
    (h : ciOccurs "Synopsis".data body.data = false ∨
         ciOccurs "Description".data body.data = false) :
    synopsisExtract name body = none := by
  cases hs : synSearch name.data body.data with
  | none => simp [synopsisExtract, hs]
  | some g =>
    exfalso
    obtain ⟨o1, o2⟩ := synSearch_occurs _ _ _ hs
    rcases h with h | h
    · rw [o1] at h; exact Bool.noConfusion h
    · rw [show "Description".data = descriptionL from rfl, o2] at h
      exact Bool.noConfusion h

/-- C4 (witness): a body with no "Synopsis" keyword yields `none`. -/
theorem synopsis_none_witness :
    ciOccurs "Synopsis".data "no keywords here".data = false ∧
    synopsisExtract "foo" "no keywords here" = none :=
  ⟨by decide, synopsis_none_when_keyword_absent "foo" "no keywords here" (Or.inl (by decide))⟩

theorem mem_insertKey (r : Bool) (k : String → Nat) (a x : String) :
    ∀ l : List String, x ∈ insertKey r k a l → x = a ∨ x ∈ l := by
  intro l
  induction l with
  | nil => intro h; simp only [insertKey] at h; exact Or.inl (List.mem_singleton.1 h)
  | cons b rest ih =>
    intro h
    simp only [insertKey] at h
    by_cases hc : (if r then k a < k b else k b < k a)
    · rw [if_pos hc] at h
      rcases List.mem_cons.1 h with h | h
      · exact Or.inr (List.mem_cons.2 (Or.inl h))
      · rcases ih h with h | h
        · exact Or.inl h
        · exact Or.inr (List.mem_cons.2 (Or.inr h))
    · rw [if_neg hc] at h
      exact List.mem_cons.1 h

theorem mem_pySorted (r : Bool) (k : String → Nat) : ∀ (l : List String) (x : String),
    x ∈ pySorted r k l → x ∈ l := by
  intro l
  induction l with
  | nil => intro x h; simp [pySorted] at h
  | cons a rest ih =>
    intro x h
    simp only [pySorted] at h
    rcases mem_insertKey r k a x _ h with h | h
    · rw [h]; exact List.mem_cons_self a rest
    · exact List.mem_cons.2 (Or.inr (ih x h))

/-- C9: `sort_versions` removes every occurrence of the character v from
each input string, not only a leading prefix: no string of the returned
list contains the character v, whatever the input list. -/
theorem sort_versions_no_v (l : List String) (r : Bool) (s : String)
    (h : s ∈ sort_versions l r) : 'v' ∉ s.data := by
  unfold sort_versions at h
  have h1 := mem_pySorted _ _ _ _ h
  have h2 := mem_pySorted _ _ _ _ h1
  have h3 := mem_pySorted _ _ _ _ h2
  obtain ⟨x, _, rfl⟩ := List.mem_map.1 h3
  intro hv
  have hm : 'v' ∈ x.data.filter (fun c => c ≠ 'v') := hv
  have := List.of_mem_filter hm
  simp at this

/-- C9 (witness): an input with both a leading and a trailing v comes out
with every v removed. -/
theorem sort_versions_no_v_witness :
    "8.0.1" ∈ sort_versions ["v8.0.1v"] true ∧ 'v' ∉ ("8.0.1" : String).data :=
  ⟨by decide, sort_versions_no_v ["v8.0.1v"] true "8.0.1" (by decide)⟩

/-- C6: for every fetched document with no body element, the
text-normalization step of `grab_cmd_info` fails with the error the spec
names MalformedInputError (in Python, the attribute access on the missing
body raises) — it does not silently return an empty string. -/
theorem normalize_step_missing_body (d : FetchedDoc) (h : d.bodyText = none) :
    normalizeStep d = Except.error ScrapeError.malformedInput := by
  simp [normalizeStep, getBodyText, h]

/-- C6 (witness): the step evaluated at a document with no body. -/
theorem normalize_step_missing_body_witness :
    normalizeStep ⟨none⟩ = Except.error ScrapeError.malformedInput :=
  normalize_step_missing_body ⟨none⟩ rfl

theorem headIsWs_of_headIsNl : ∀ l : List Char, headIsNl l = true → headIsWs l = true := by
  intro l
  cases l with
  | nil => intro h; simp [headIsNl] at h
  | cons b r =>
    intro h
    simp only [headIsNl, decide_eq_true_eq] at h
    subst h
    rfl

theorem subLeadingWsGo_true_head : ∀ cs : List Char,
    headIsWs (subLeadingWsGo true cs) = false := by
  intro cs
  induction cs with
  | nil => rfl
  | cons c rest ih =>
    simp only [subLeadingWsGo, Bool.true_and]
    by_cases hw : isWs c = true
    · rw [if_pos hw]; exact ih
    · rw [if_neg hw]
      have hnl : ¬(c = '\n') := by
        intro h; subst h; exact hw (by decide)
      rw [if_neg hnl]
      simpa [headIsWs] using hw

theorem subLeadingWsGo_noNlThenWs : ∀ (cs : List Char) (flag : Bool),
    noNlThenWs (subLeadingWsGo flag cs) = true := by
  intro cs
  induction cs with
  | nil => intro flag; rfl
  | cons c rest ih =>
    intro flag
    simp only [subLeadingWsGo]
    by_cases hf : (flag && isWs c) = true
    · rw [if_pos hf]; exact ih true
    · rw [if_neg hf]
      by_cases hnl : c = '\n'
      · subst hnl
        rw [if_pos rfl]
        simp only [noNlThenWs, Bool.and_eq_true]
        refine ⟨?_, ih true⟩
        simp [subLeadingWsGo_true_head rest]
      · rw [if_neg hnl]
        simp only [noNlThenWs, Bool.and_eq_true]
        refine ⟨?_, ih false⟩
        simp [hnl]

theorem subTrailingWs_head : ∀ l : List Char, headIsWs l = false →
    headIsWs (subTrailingWs l) = false := by
  intro l hl
  cases l with
  | nil => rfl
  | cons c rest =>
    have hw : isWs c = false := by simpa [headIsWs] using hl
    simp only [subTrailingWs, hw, Bool.false_and, Bool.false_eq_true, if_false]
    simpa [headIsWs] using hw

theorem subTrailingWs_headNl : ∀ l : List Char,
    (l.takeWhile isWs).contains '\n' = false → headIsNl (subTrailingWs l) = false := by
  intro l hl
  cases l with
  | nil => rfl
  | cons d r2 =>
    by_cases hd : isWs d = true
    · rw [List.takeWhile_cons_of_pos hd] at hl
      simp only [List.contains_cons, Bool.or_eq_false_iff] at hl
      have hne : d ≠ '\n' := by
        intro h
        rw [h] at hl
        exact absurd hl.1 (by decide)
      have hdel : (isWs d && (r2.takeWhile isWs).contains '\n') = false := by
        rw [hl.2, Bool.and_false]
      simp only [subTrailingWs, hdel, Bool.false_eq_true, if_false, headIsNl]
      exact decide_eq_false hne
    · have hdel : (isWs d && (r2.takeWhile isWs).contains '\n') = false := by
        rw [Bool.eq_false_iff.2 hd, Bool.false_and]
      have hne : d ≠ '\n' := by
        intro h
        exact hd (by rw [h]; rfl)
      simp only [subTrailingWs, hdel, Bool.false_eq_true, if_false, headIsNl]
      exact decide_eq_false hne

theorem subBlankLines_cons (c : Char) (rest : List Char) :
    subBlankLines (c :: rest) =
      if c = '\n' && headIsNl rest then subBlankLines rest
      else c :: subBlankLines rest := rfl

theorem subTrailingWs_cons (c : Char) (rest : List Char) :
    subTrailingWs (c :: rest) =
      if isWs c && (rest.takeWhile isWs).contains '\n' then subTrailingWs rest
      else c :: subTrailingWs rest := rfl

theorem subTrailingWs_preserves : ∀ cs : List Char, noNlThenWs cs = true →
    noNlThenWs (subTrailingWs cs) = true ∧ noWsThenNl (subTrailingWs cs) = true := by
  intro cs
  induction cs with
  | nil => intro _; exact ⟨rfl, rfl⟩
  | cons c rest ih =>
    intro h
    simp only [noNlThenWs, Bool.and_eq_true] at h
    obtain ⟨h1, h2⟩ := h
    obtain ⟨ih1, ih2⟩ := ih h2
    by_cases hdel : (isWs c && (rest.takeWhile isWs).contains '\n') = true
    · rw [subTrailingWs_cons, if_pos hdel]
      exact ⟨ih1, ih2⟩
    · rw [subTrailingWs_cons, if_neg hdel]
      constructor
      · simp only [noNlThenWs, Bool.and_eq_true]
        refine ⟨?_, ih1⟩
        by_cases hc : c = '\n'
        · subst hc
          have hw : headIsWs rest = false := by simpa using h1
          simp [subTrailingWs_head rest hw]
        · simp [hc]
      · simp only [noWsThenNl, Bool.and_eq_true]
        refine ⟨?_, ih2⟩
        by_cases hw : isWs c = true
        · have hq : (isWs c && (rest.takeWhile isWs).contains '\n') = false :=
            Bool.eq_false_iff.2 hdel
          rw [hw, Bool.true_and] at hq
          simp [hw, subTrailingWs_headNl rest hq]
        · simp [Bool.eq_false_iff.2 hw]

theorem subBlankLines_id : ∀ cs : List Char, noNlThenWs cs = true →
    subBlankLines cs = cs := by
  intro cs
  induction cs with
  | nil => intro _; rfl
  | cons c rest ih =>
    intro h
    simp only [noNlThenWs, Bool.and_eq_true] at h
    obtain ⟨h1, h2⟩ := h
    have hcond : ((c = '\n' : Bool) && headIsNl rest) = false := by
      by_cases hc : c = '\n'
      · subst hc
        have hw : headIsWs rest = false := by simpa using h1
        have hn : headIsNl rest = false := by
          cases hn : headIsNl rest
          · rfl
          · rw [headIsWs_of_headIsNl rest hn] at hw; exact Bool.noConfusion hw
        simp [hn]
      · simp [hc]
    rw [subBlankLines_cons, hcond, if_neg Bool.false_ne_true, ih h2]

theorem subLeadingWsGo_id : ∀ cs : List Char, noNlThenWs cs = true →
    subLeadingWsGo false cs = cs ∧ (headIsWs cs = false → subLeadingWsGo true cs = cs) := by
  intro cs
  induction cs with
  | nil => intro _; exact ⟨rfl, fun _ => rfl⟩
  | cons c rest ih =>
    intro h
    simp only [noNlThenWs, Bool.and_eq_true] at h
    obtain ⟨h1, h2⟩ := h
    obtain ⟨ihF, ihT⟩ := ih h2
    constructor
    · show subLeadingWsGo false (c :: rest) = c :: rest
      simp only [subLeadingWsGo, Bool.false_and, Bool.false_eq_true, if_false]
      by_cases hc : c = '\n'
      · subst hc
        rw [if_pos rfl]
        have hw : headIsWs rest = false := by simpa using h1
        rw [ihT hw]
      · rw [if_neg hc, ihF]
    · intro hws
      have hw : isWs c = false := by simpa [headIsWs] using hws
      show subLeadingWsGo true (c :: rest) = c :: rest
      simp only [subLeadingWsGo, Bool.true_and, hw, Bool.false_eq_true, if_false]
      have hc : ¬(c = '\n') := by
        intro hcc
        subst hcc
        exact absurd hw (by decide)
      rw [if_neg hc, ihF]

theorem subTrailingWs_takeWhile_noNl : ∀ l : List Char, noWsThenNl l = true →
    headIsNl l = false → (l.takeWhile isWs).contains '\n' = false := by
  intro l
  induction l with
  | nil => intro _ _; rfl
  | cons d r2 ih =>
    intro h hn
    simp only [noWsThenNl, Bool.and_eq_true] at h
    obtain ⟨h1, h2⟩ := h
    have hdn : d ≠ '\n' := by
      intro hcc
      subst hcc
      simp [headIsNl] at hn
    by_cases hd : isWs d = true
    · rw [List.takeWhile_cons_of_pos hd]
      simp only [List.contains_cons, Bool.or_eq_false_iff]
      constructor
      · exact beq_eq_false_iff_ne.2 fun hcc => hdn hcc.symm
      · have hn2 : headIsNl r2 = false := by
          cases hr : headIsNl r2
          · rfl
          · rw [hd, hr] at h1; exact Bool.noConfusion h1
        exact ih h2 hn2
    · rw [List.takeWhile_cons_of_neg (by simpa using hd)]
      rfl

theorem subTrailingWs_id : ∀ cs : List Char, noWsThenNl cs = true →
    subTrailingWs cs = cs := by
  intro cs
  induction cs with
  | nil => intro _; rfl
  | cons c rest ih =>
    intro h
    have hall := h
    simp only [noWsThenNl, Bool.and_eq_true] at h
    obtain ⟨h1, h2⟩ := h
    have hcond : (isWs c && (rest.takeWhile isWs).contains '\n') = false := by
      by_cases hw : isWs c = true
      · have hn : headIsNl rest = false := by
          cases hr : headIsNl rest
          · rfl
          · rw [hw, hr] at h1; exact Bool.noConfusion h1
        rw [hw, Bool.true_and]
        exact subTrailingWs_takeWhile_noNl rest h2 hn
      · rw [Bool.eq_false_iff.2 hw, Bool.false_and]
    rw [subTrailingWs_cons, hcond, if_neg Bool.false_ne_true, ih h2]

/-- C5: the three-substitution sanitising pipeline of lines 159–161 is
idempotent — applying it twice yields the same string as applying it
once, for every input string. -/
theorem normalize_idempotent (s : String) :
    normalizeStr (normalizeStr s) = normalizeStr s := by
  show String.mk (normalizeText (String.mk (normalizeText s.data)).data)
      = String.mk (normalizeText s.data)
  show String.mk (normalizeText (normalizeText s.data)) = String.mk (normalizeText s.data)
  have key : ∀ cs : List Char, normalizeText (normalizeText cs) = normalizeText cs := by
    intro cs
    have hp2 : noNlThenWs (subLeadingWs (subBlankLines cs)) = true :=
      subLeadingWsGo_noNlThenWs (subBlankLines cs) false
    obtain ⟨hz2, hz3⟩ := subTrailingWs_preserves _ hp2
    show normalizeText (subTrailingWs (subLeadingWs (subBlankLines cs)))
        = subTrailingWs (subLeadingWs (subBlankLines cs))
    unfold normalizeText
    rw [subBlankLines_id _ hz2]
    rw [show subLeadingWs (subTrailingWs (subLeadingWs (subBlankLines cs)))
          = subTrailingWs (subLeadingWs (subBlankLines cs)) from (subLeadingWsGo_id _ hz2).1]
    exact subTrailingWs_id _ hz3
  rw [key]
